import Mathlib

/-!
Verification of the coffee-news batch annotation pipeline
(`src/processor.py`, `src/config.py`).

The pipeline is embedded shallowly: every inference call is replaced by an
oracle parameter (`Option BatchResult` per call, or `Nat → Except String
BatchResult` per retry attempt for the structured-call client), so that
theorems quantify over all possible behaviours of the inference service.
Python dictionaries `{'title': ..., 'link': ..., 'source': ..., 'content': ...}`
become the `Article` structure; the annotated output dictionaries (original
keys plus `category` and `summary`) become `AnnotatedItem`.
-/

namespace CoffeeNews

/-- An input article, as built by `fetchers.py`
(keys `title`, `link`, `source`, `content`). -/
structure Article where
  title : String
  link : String
  source : String
  content : String
deriving Repr, DecidableEq

/-- Pydantic schema `ProcessedArticle` from `src/processor.py`. -/
structure ProcessedArticle where
  index : Int
  category_id : Int
  summary : String
deriving Repr, DecidableEq

/-- Pydantic schema `BatchResult` from `src/processor.py`. -/
structure BatchResult where
  articles : List ProcessedArticle
deriving Repr, DecidableEq

/-- An output record: a copy of the original article dictionary plus the
`category` and `summary` keys set by the processor. -/
structure AnnotatedItem where
  item : Article
  category : String
  summary : String
deriving Repr, DecidableEq

/-- `config.CATEGORIES`: the fixed 7 category labels. -/
def CATEGORIES : List String :=
  [ "1. 今週の要チェック記事（Top News）"
  , "2. 市況・産地・トレード（Market & Origin）"
  , "3. カフェ経営・リテール・マーケティング（Retail & Business）"
  , "4. 焙煎・抽出・サイエンス（Roasting & Science）"
  , "5. テクニカル・機材（Tech & Gear）"
  , "6. サステナビリティ・環境・倫理（Sustainability）"
  , "7. 競技会・イベント・カルチャー（Events & Culture）" ]

/-- The fallback summary text from `_build_fallback_chunk`. -/
def FALLBACK_SUMMARY : String := "API制限などにより自動要約に失敗しました。"

/-- The summary text set in `_recover_failed_articles` when an item is
still absent from the recovery result. -/
def RECOVERY_FALLBACK_SUMMARY : String := "自動復旧処理（自己修復リカバリー）でも要約に失敗しました。"

/-- Body truncation performed while building the Pass 1 / Pass 2 prompt
payload: `if len(content) > 1500: content = content[:1500] + "...(truncated)"`. -/
def truncateContent (content : String) : String :=
  if content.length > 1500 then content.take 1500 ++ "...(truncated)" else content

/-- One entry of the prompt payload built in `_process_batch_two_pass`. -/
def payloadEntry (i : Nat) (a : Article) : String :=
  "--- ARTICLE INDEX: " ++ toString i ++ " ---\nTITLE: " ++ a.title ++
    "\nCONTENT: " ++ truncateContent a.content ++ "\n\n"

/-- The payload accumulation loop of `_process_batch_two_pass`,
with `i` the running `enumerate` index. -/
def buildInputPayloadAux : Nat → List Article → String
  | _, [] => ""
  | i, a :: rest => payloadEntry i a ++ buildInputPayloadAux (i + 1) rest

/-- `input_payload` of `_process_batch_two_pass` for a chunk. -/
def buildInputPayload (chunk : List Article) : String :=
  buildInputPayloadAux 0 chunk

/-- The category-resolution logic of `_merge_results` /
`_recover_failed_articles`: `cat_idx = category_id - 1`, in-range indices
select from `CATEGORIES`, anything else falls back to `CATEGORIES[0]`. -/
def resolveCategory (category_id : Int) : String :=
  let cat_idx := category_id - 1
  if h : 0 ≤ cat_idx ∧ cat_idx < (CATEGORIES.length : Int) then
    CATEGORIES.get ⟨cat_idx.toNat, by omega⟩
  else
    CATEGORIES.getD 0 ""

/-- `result_lookup = {item.index: item for item in batch_result.articles}`:
a left-to-right dictionary build, so a later entry with the same index
overwrites an earlier one. -/
def resultLookup (articles : List ProcessedArticle) (i : Int) : Option ProcessedArticle :=
  articles.foldl (fun acc a => if a.index = i then some a else acc) none

/-- The record built in `_merge_results` / `_recover_failed_articles` when a
lookup hit exists: copy of the article plus resolved category and the
annotation's summary. -/
def mkAnnotated (a : Article) (ai : ProcessedArticle) : AnnotatedItem :=
  { item := a, category := resolveCategory ai.category_id, summary := ai.summary }

/-- The loop body of `_merge_results`: `i` is the running `enumerate`
index; hits go to `processed_chunk` (first output), misses to
`failed_originals` (second output), each preserving chunk order. -/
def mergeResultsAux (lookup : Int → Option ProcessedArticle) :
    Nat → List Article → List AnnotatedItem × List Article
  | _, [] => ([], [])
  | i, a :: rest =>
    let r := mergeResultsAux lookup (i + 1) rest
    match lookup i with
    | some ai => (mkAnnotated a ai :: r.1, r.2)
    | none => (r.1, a :: r.2)

/-- `_merge_results` from `src/processor.py`. -/
def mergeResults (original_chunk : List Article) (batch_result : BatchResult) :
    List AnnotatedItem × List Article :=
  mergeResultsAux (resultLookup batch_result.articles) 0 original_chunk

/-- `_build_fallback_chunk` from `src/processor.py`. -/
def buildFallbackChunk (chunk : List Article) : List AnnotatedItem :=
  chunk.map fun a =>
    { item := a, category := CATEGORIES.getD 0 "", summary := FALLBACK_SUMMARY }

/-- The reconciliation loop of `_recover_failed_articles` (after its
recovery call succeeded): hits get the recovered annotation, misses get the
recovery-failure record; output order follows the failed chunk. -/
def recoverAux (lookup : Int → Option ProcessedArticle) :
    Nat → List Article → List AnnotatedItem
  | _, [] => []
  | i, a :: rest =>
    (match lookup i with
     | some ai => mkAnnotated a ai
     | none =>
       { item := a, category := CATEGORIES.getD 0 "", summary := RECOVERY_FALLBACK_SUMMARY }) ::
      recoverAux lookup (i + 1) rest

/-- `_recover_failed_articles` from `src/processor.py`, with the result of
its single structured call given by the oracle `recovery_result`. -/
def recoverFailedArticles (failed_chunk : List Article)
    (recovery_result : Option BatchResult) : List AnnotatedItem :=
  match recovery_result with
  | none => buildFallbackChunk failed_chunk
  | some rr => recoverAux (resultLookup rr.articles) 0 failed_chunk

/-- The three structured-call outcomes one chunk can observe:
Pass 1, Pass 2, and the recovery pass (each `none` when that call
exhausted its retries). -/
structure ChunkOracle where
  pass1 : Option BatchResult
  pass2 : Option BatchResult
  recovery : Option BatchResult
deriving Repr, DecidableEq

/-- Lines 111-120 of `_process_batch_two_pass`: merge against the final
result, then run recovery iff some originals failed. Also returns the list
of stage names of the structured calls this step makes. -/
def reconcileChunk (chunk : List Article) (final_result : BatchResult)
    (recovery : Option BatchResult) : List AnnotatedItem × List String :=
  let m := mergeResults chunk final_result
  if m.2.isEmpty then (m.1, [])
  else (m.1 ++ recoverFailedArticles m.2 recovery, ["Recovery Pass"])

/-- `_process_batch_two_pass` from `src/processor.py`. First output: the
processed chunk; second output: the stage names of the structured calls
made, in order. If Pass 1 yields no result the chunk falls back
immediately and Pass 2 is never called; otherwise Pass 2 is called and
`final_result = pass2_result if pass2_result else pass1_result`. -/
def processBatchTwoPass (chunk : List Article) (o : ChunkOracle) :
    List AnnotatedItem × List String :=
  match o.pass1 with
  | none => (buildFallbackChunk chunk, ["Pass 1"])
  | some p1 =>
    let final_result := o.pass2.getD p1
    let rc := reconcileChunk chunk final_result o.recovery
    (rc.1, "Pass 1" :: "Pass 2" :: rc.2)

/-- The chunk split of `process_articles_in_chunks`:
`[articles[i:i + chunk_size] for i in range(0, len(articles), chunk_size)]`.
For a positive chunk size this comprehension takes `chunk_size` elements
and recurses on the rest; Python raises `ValueError` on step 0, which has
no return value, so the size-0 case is modelled as the empty list. -/
def chunkList : Nat → List Article → List (List Article)
  | _, [] => []
  | 0, _ :: _ => []
  | n + 1, a :: rest =>
    ((a :: rest).take (n + 1)) :: chunkList (n + 1) ((a :: rest).drop (n + 1))
termination_by _ l => l.length
decreasing_by simp [List.length_drop]; omega

/-- The chunk loop of `process_articles_in_chunks`: processes each chunk in
order with that chunk's oracle and concatenates (`extend`) the outputs. -/
def processChunksFrom (orc : Nat → ChunkOracle) :
    Nat → List (List Article) → List AnnotatedItem
  | _, [] => []
  | i, c :: cs =>
    (processBatchTwoPass c (orc i)).1 ++ processChunksFrom orc (i + 1) cs

/-- `process_articles_in_chunks` from `src/processor.py`, with the
structured-call outcomes for chunk `k` given by `orc k`. -/
def process_articles_in_chunks (articles : List Article) (chunk_size : Nat)
    (orc : Nat → ChunkOracle) : List AnnotatedItem :=
  processChunksFrom orc 0 (chunkList chunk_size articles)

/-- `"429" in error_msg`: substring containment check. -/
def has429 : List Char → Bool
  | [] => false
  | '4' :: '2' :: '9' :: _ => true
  | _ :: rest => has429 rest

/-- `max_retries` of `_call_gemini_structured`. -/
def max_retries : Nat := 3

/-- `base_delay` of `_call_gemini_structured`. -/
def base_delay : Nat := 15

/-- `sleep_time = 65 if "429" in error_msg else base_delay * (attempt + 1)`
(`attempt` 0-based, as in the Python loop). -/
def retryDelay (base : Nat) (attempt : Nat) (error_msg : String) : Nat :=
  if has429 error_msg.toList then 65 else base * (attempt + 1)

/-- The retry loop of `_call_gemini_structured`. `oracle k` is attempt
`k`'s outcome: `.ok r` a parsed structured result, `.error e` any caught
exception (network error, HTTP failure, or the `ValueError` raised when
`parsed` is missing), with `e` the exception text. Arguments: the 0-based
attempt index and the remaining number of attempts. Returns the final
result (`none` once retries are exhausted), the number of attempts made,
and the list of sleep delays taken between attempts. -/
def callLoop (oracle : Nat → Except String BatchResult) :
    Nat → Nat → Option BatchResult × Nat × List Nat
  | _, 0 => (none, 0, [])
  | attempt, remaining + 1 =>
    match oracle attempt with
    | .ok r => (some r, 1, [])
    | .error e =>
      if remaining = 0 then (none, 1, [])
      else
        let rest := callLoop oracle (attempt + 1) remaining
        (rest.1, rest.2.1 + 1, retryDelay base_delay attempt e :: rest.2.2)

/-- `_call_gemini_structured` from `src/processor.py`: up to `max_retries`
attempts starting at attempt 0. -/
def callGeminiStructured (oracle : Nat → Except String BatchResult) :
    Option BatchResult × Nat × List Nat :=
  callLoop oracle 0 max_retries

/-! ## Lemmas about the Chunker -/

theorem chunkList_flatten_fuel (m : Nat) :
    ∀ (k : Nat) (l : List Article), l.length ≤ k → (chunkList (m + 1) l).flatten = l
  | _, [], _ => by simp [chunkList]
  | 0, a :: rest, h => by simp at h
  | k + 1, a :: rest, h => by
    simp only [chunkList, List.flatten_cons]
    rw [chunkList_flatten_fuel m k ((a :: rest).drop (m + 1))
      (by simp only [List.length_drop, List.length_cons] at h ⊢; omega)]
    exact List.take_append_drop _ _

theorem chunkList_flatten (n : Nat) (hn : 0 < n) (l : List Article) :
    (chunkList n l).flatten = l := by
  obtain ⟨m, rfl⟩ : ∃ m, n = m + 1 := ⟨n - 1, by omega⟩
  exact chunkList_flatten_fuel m l.length l le_rfl

theorem chunkList_length_le (m : Nat) :
    ∀ (k : Nat) (l : List Article), l.length ≤ k →
      ∀ c ∈ chunkList (m + 1) l, c.length ≤ m + 1
  | _, [], _ => by simp [chunkList]
  | 0, a :: rest, h => by simp at h
  | k + 1, a :: rest, h => by
    simp only [chunkList, List.mem_cons]
    rintro c (rfl | hc)
    · simp
    · exact chunkList_length_le m k ((a :: rest).drop (m + 1))
        (by simp only [List.length_drop, List.length_cons] at h ⊢; omega) c hc

theorem chunkList_eq_nil_iff (m : Nat) (l : List Article) :
    chunkList (m + 1) l = [] ↔ l = [] := by
  cases l with
  | nil => simp [chunkList]
  | cons a rest => simp [chunkList]

theorem chunkList_dropLast_length (m : Nat) :
    ∀ (k : Nat) (l : List Article), l.length ≤ k →
      ∀ c ∈ (chunkList (m + 1) l).dropLast, c.length = m + 1
  | _, [], _ => by simp [chunkList]
  | 0, a :: rest, h => by simp at h
  | k + 1, a :: rest, h => by
    simp only [chunkList]
    rcases hrest : chunkList (m + 1) ((a :: rest).drop (m + 1)) with _ | ⟨c0, cs⟩
    · simp
    · intro c hc
      rw [List.dropLast_cons_of_ne_nil (by simp)] at hc
      rcases List.mem_cons.mp hc with rfl | hc'
      · have hne : (a :: rest).drop (m + 1) ≠ [] := by
          intro hnil
          rw [hnil] at hrest
          simp [chunkList] at hrest
        have hlen : m + 1 < (a :: rest).length := by
          by_contra hle
          exact hne (List.drop_eq_nil_of_le (by omega))
        simp only [List.length_take, List.length_cons] at hlen ⊢
        omega
      · have := chunkList_dropLast_length m k ((a :: rest).drop (m + 1))
          (by simp only [List.length_drop, List.length_cons] at h ⊢; omega) c
        rw [hrest] at this
        exact this hc'

/-! ## Per-item bookkeeping lemmas for merge, recovery and fallback -/

theorem mergeResultsAux_perm (lookup : Int → Option ProcessedArticle) :
    ∀ (l : List Article) (i : Nat),
      ((mergeResultsAux lookup i l).1.map (fun r => r.item) ++
          (mergeResultsAux lookup i l).2).Perm l := by
  intro l
  induction l with
  | nil => intro i; simp [mergeResultsAux]
  | cons a rest ih =>
    intro i
    simp only [mergeResultsAux]
    rcases lookup i with _ | ai
    · exact List.perm_middle.trans ((ih (i + 1)).cons a)
    · simpa [mkAnnotated] using (ih (i + 1)).cons a

theorem mergeResultsAux_length (lookup : Int → Option ProcessedArticle) :
    ∀ (l : List Article) (i : Nat),
      (mergeResultsAux lookup i l).1.length + (mergeResultsAux lookup i l).2.length
        = l.length := by
  intro l
  induction l with
  | nil => intro i; simp [mergeResultsAux]
  | cons a rest ih =>
    intro i
    simp only [mergeResultsAux]
    rcases lookup i with _ | ai
    · simp only [List.length_cons]
      have := ih (i + 1)
      omega
    · simp only [List.length_cons]
      have := ih (i + 1)
      omega

theorem recoverAux_map_item (lookup : Int → Option ProcessedArticle) :
    ∀ (l : List Article) (i : Nat),
      (recoverAux lookup i l).map (fun r => r.item) = l := by
  intro l
  induction l with
  | nil => intro i; simp [recoverAux]
  | cons a rest ih =>
    intro i
    simp only [recoverAux, List.map_cons]
    rcases lookup i with _ | ai
    · simp [ih (i + 1)]
    · simp [mkAnnotated, ih (i + 1)]

theorem buildFallbackChunk_map_item (l : List Article) :
    (buildFallbackChunk l).map (fun r => r.item) = l := by
  induction l with
  | nil => rfl
  | cons a rest ih => simpa [buildFallbackChunk] using ih

theorem recoverFailedArticles_map_item (l : List Article) (r : Option BatchResult) :
    (recoverFailedArticles l r).map (fun x => x.item) = l := by
  rcases r with _ | rr
  · exact buildFallbackChunk_map_item l
  · exact recoverAux_map_item _ l 0

theorem processBatchTwoPass_perm (c : List Article) (o : ChunkOracle) :
    ((processBatchTwoPass c o).1.map (fun r => r.item)).Perm c := by
  rcases ho : o.pass1 with _ | p1
  · simp [processBatchTwoPass, ho, buildFallbackChunk_map_item]
  · simp only [processBatchTwoPass, ho, reconcileChunk]
    set fr := o.pass2.getD p1 with hfr
    rcases hm : (mergeResults c fr).2.isEmpty with _ | _
    · simp only [hm, Bool.false_eq_true, if_false, List.map_append,
        recoverFailedArticles_map_item]
      have h := mergeResultsAux_perm (resultLookup fr.articles) c 0
      simpa [mergeResults] using h
    · simp only [hm, if_true]
      have h := mergeResultsAux_perm (resultLookup fr.articles) c 0
      have he : (mergeResults c fr).2 = [] := List.isEmpty_iff.mp hm
      rw [mergeResults] at he
      rw [he, List.append_nil] at h
      simpa [mergeResults] using h

theorem processChunksFrom_perm (orc : Nat → ChunkOracle) :
    ∀ (cs : List (List Article)) (i : Nat),
      ((processChunksFrom orc i cs).map (fun r => r.item)).Perm cs.flatten := by
  intro cs
  induction cs with
  | nil => intro i; simp [processChunksFrom]
  | cons c rest ih =>
    intro i
    simp only [processChunksFrom, List.map_append, List.flatten_cons]
    exact (processBatchTwoPass_perm c (orc i)).append (ih (i + 1))

/-! ## Lemmas about the index lookup dictionary -/

theorem option_some_or {α : Type} (a : α) (o : Option α) : (some a).or o = some a := rfl

theorem resultLookup_acc (i : Int) :
    ∀ (l : List ProcessedArticle) (acc : Option ProcessedArticle),
      l.foldl (fun acc a => if a.index = i then some a else acc) acc
        = (l.foldl (fun acc a => if a.index = i then some a else acc) none).or acc := by
  intro l
  induction l with
  | nil => intro acc; simp
  | cons b l ih =>
    intro acc
    simp only [List.foldl_cons]
    rw [ih (if b.index = i then some b else acc), ih (if b.index = i then some b else none)]
    rcases hfd : l.foldl (fun acc a => if a.index = i then some a else acc) none with _ | v
    · rw [hfd]
      simp only [Option.none_or]
      split <;> rfl
    · rw [hfd]
      rfl

theorem resultLookup_cons (b : ProcessedArticle) (l : List ProcessedArticle) (i : Int) :
    resultLookup (b :: l) i
      = (resultLookup l i).or (if b.index = i then some b else none) := by
  simp only [resultLookup, List.foldl_cons]
  exact resultLookup_acc i l _

theorem resultLookup_append (l₁ l₂ : List ProcessedArticle) (i : Int) :
    resultLookup (l₁ ++ l₂) i = (resultLookup l₂ i).or (resultLookup l₁ i) := by
  simp only [resultLookup, List.foldl_append]
  exact resultLookup_acc i l₂ _

theorem resultLookup_mem {l : List ProcessedArticle} {i : Int} {ai : ProcessedArticle}
    (h : resultLookup l i = some ai) : ai ∈ l ∧ ai.index = i := by
  induction l with
  | nil => simp [resultLookup] at h
  | cons b l ih =>
    rw [resultLookup_cons] at h
    rcases hl : resultLookup l i with _ | v
    · rw [hl, Option.none_or] at h
      split at h
      · cases h
        exact ⟨List.mem_cons_self _ _, by assumption⟩
      · cases h
    · rw [hl, option_some_or] at h
      cases h
      obtain ⟨hmem, hidx⟩ := ih hl
      exact ⟨List.mem_cons_of_mem _ hmem, hidx⟩

theorem resultLookup_eq_none_iff (l : List ProcessedArticle) (i : Int) :
    resultLookup l i = none ↔ ∀ b ∈ l, b.index ≠ i := by
  induction l with
  | nil => simp [resultLookup]
  | cons b l ih =>
    rw [resultLookup_cons]
    rcases hl : resultLookup l i with _ | v
    · simp only [Option.none_or]
      constructor
      · intro h c hc
        split at h
        · cases h
        · rcases List.mem_cons.mp hc with rfl | hc2
          · assumption
          · exact (ih.mp hl) c hc2
      · intro h
        rw [if_neg (h b (List.mem_cons_self _ _))]
    · simp only [option_some_or]
      constructor
      · intro h; cases h
      · intro h
        obtain ⟨hmem, hidx⟩ := resultLookup_mem hl
        exact absurd hidx (h v (List.mem_cons_of_mem _ hmem))

theorem resultLookup_eq_some_of_unique {l : List ProcessedArticle} {i : Int}
    {ai : ProcessedArticle} (hmem : ai ∈ l) (hidx : ai.index = i)
    (huniq : ∀ b ∈ l, b.index = i → b = ai) : resultLookup l i = some ai := by
  induction l with
  | nil => cases hmem
  | cons b l ih =>
    rw [resultLookup_cons]
    rcases hl : resultLookup l i with _ | v
    · have hni : ∀ c ∈ l, c.index ≠ i := (resultLookup_eq_none_iff l i).mp hl
      rcases List.mem_cons.mp hmem with rfl | hmem2
      · rw [Option.none_or, if_pos hidx]
      · exact absurd hidx (hni ai hmem2)
    · obtain ⟨hvmem, hvidx⟩ := resultLookup_mem hl
      have hv : v = ai := huniq v (List.mem_cons_of_mem _ hvmem) hvidx
      rw [option_some_or, hv]

theorem resultLookup_last_wins (l₁ l₂ : List ProcessedArticle) (b : ProcessedArticle)
    (i : Int) (hidx : b.index = i) (hafter : ∀ c ∈ l₂, c.index ≠ i) :
    resultLookup (l₁ ++ b :: l₂) i = some b := by
  rw [resultLookup_append, resultLookup_cons,
    (resultLookup_eq_none_iff l₂ i).mpr hafter,
    Option.none_or, if_pos hidx, option_some_or]

theorem resultLookup_filter (l : List ProcessedArticle) (i : Int)
    (p : ProcessedArticle → Bool) (hp : ∀ b, b.index = i → p b = true) :
    resultLookup (l.filter p) i = resultLookup l i := by
  induction l with
  | nil => rfl
  | cons b l ih =>
    by_cases hb : p b = true
    · rw [List.filter_cons_of_pos hb, resultLookup_cons, resultLookup_cons, ih]
    · rw [List.filter_cons_of_neg (by simpa using hb), ih, resultLookup_cons]
      have hbi : b.index ≠ i := fun h => hb (hp b h)
      rw [if_neg hbi]
      rcases resultLookup l i with _ | v <;> rfl

/-! ## Pointwise characterization of merge and recovery -/

theorem mergeResultsAux_congr (lk₁ lk₂ : Int → Option ProcessedArticle) :
    ∀ (l : List Article) (s : Nat),
        (∀ j, j < l.length → lk₁ ((s + j : Nat) : Int) = lk₂ ((s + j : Nat) : Int)) →
      mergeResultsAux lk₁ s l = mergeResultsAux lk₂ s l := by
  intro l
  induction l with
  | nil => intro s _; rfl
  | cons a rest ih =>
    intro s hag
    have h0 : lk₁ s = lk₂ s := by
      have := hag 0 (by simp)
      simpa using this
    have hrec : mergeResultsAux lk₁ (s + 1) rest = mergeResultsAux lk₂ (s + 1) rest := by
      apply ih
      intro j hj
      have hcast := hag (j + 1) (by simp; omega)
      have harith : ((s + (j + 1) : Nat) : Int) = ((s + 1 + j : Nat) : Int) :=
        congrArg (fun n : Nat => (n : Int)) (by omega)
      rw [harith] at hcast
      exact hcast
    simp only [mergeResultsAux, hrec, h0]

theorem mergeResultsAux_mem_of_lookup (lookup : Int → Option ProcessedArticle) :
    ∀ (l : List Article) (s j : Nat) (hj : j < l.length) (ai : ProcessedArticle),
      lookup ((s + j : Nat) : Int) = some ai →
      mkAnnotated (l.get ⟨j, hj⟩) ai ∈ (mergeResultsAux lookup s l).1 := by
  intro l
  induction l with
  | nil => intro s j hj; simp at hj
  | cons a rest ih =>
    intro s j hj ai hlk
    cases j with
    | zero =>
      simp only [Nat.add_zero] at hlk
      simp only [mergeResultsAux, hlk, List.get]
      exact List.mem_cons_self _ _
    | succ j' =>
      have harith : ((s + (j' + 1) : Nat) : Int) = ((s + 1 + j' : Nat) : Int) :=
        congrArg (fun n : Nat => (n : Int)) (by omega)
      rw [harith] at hlk
      have hmem := ih (s + 1) j' (by simpa using Nat.lt_of_succ_lt_succ hj) ai hlk
      simp only [mergeResultsAux, List.get]
      rcases lookup (s : Int) with _ | ai0
      · exact hmem
      · exact List.mem_cons_of_mem _ hmem

theorem mergeResultsAux_failed (lookup : Int → Option ProcessedArticle) :
    ∀ (l : List Article) (s : Nat),
      (mergeResultsAux lookup s l).2
        = ((List.enumFrom s l).filter (fun p => (lookup (p.1 : Int)).isNone)).map Prod.snd := by
  intro l
  induction l with
  | nil => intro s; rfl
  | cons a rest ih =>
    intro s
    simp only [mergeResultsAux, List.enumFrom_cons]
    rcases hs : lookup (s : Int) with _ | ai
    · rw [List.filter_cons_of_pos (by simp [hs])]
      simp only [List.map_cons]
      rw [← ih (s + 1)]
    · rw [List.filter_cons_of_neg (by simp [hs])]
      rw [← ih (s + 1)]

theorem recoverAux_length (lookup : Int → Option ProcessedArticle) :
    ∀ (l : List Article) (s : Nat), (recoverAux lookup s l).length = l.length := by
  intro l
  induction l with
  | nil => intro s; rfl
  | cons a rest ih =>
    intro s
    simp only [recoverAux, List.length_cons, ih (s + 1)]

theorem recoverAux_getD (lookup : Int → Option ProcessedArticle)
    (d : AnnotatedItem) (da : Article) :
    ∀ (l : List Article) (s j : Nat), j < l.length →
      (recoverAux lookup s l).getD j d
        = (match lookup ((s + j : Nat) : Int) with
           | some ai => mkAnnotated (l.getD j da) ai
           | none => { item := l.getD j da, category := CATEGORIES.getD 0 "",
                       summary := RECOVERY_FALLBACK_SUMMARY }) := by
  intro l
  induction l with
  | nil => intro s j hj; simp at hj
  | cons a rest ih =>
    intro s j hj
    cases j with
    | zero =>
      simp only [recoverAux, Nat.add_zero, List.getD_cons_zero]
    | succ j' =>
      have harith : ((s + (j' + 1) : Nat) : Int) = ((s + 1 + j' : Nat) : Int) :=
        congrArg (fun n : Nat => (n : Int)) (by omega)
      rw [harith]
      simp only [recoverAux, List.getD_cons_succ]
      exact ih (s + 1) j' (by simpa using Nat.lt_of_succ_lt_succ hj)

/-! ## Origin of categories and summaries in output records -/

theorem CATEGORIES_length : CATEGORIES.length = 7 := rfl

theorem CATEGORIES_getD_mem : CATEGORIES.getD 0 "" ∈ CATEGORIES := by
  simp [CATEGORIES]

theorem resolveCategory_mem (cid : Int) : resolveCategory cid ∈ CATEGORIES := by
  simp only [resolveCategory]
  split
  · apply List.get_mem
  · exact CATEGORIES_getD_mem

theorem resolveCategory_default (cid : Int) (h : cid < 1 ∨ 7 < cid) :
    resolveCategory cid = CATEGORIES.getD 0 "" := by
  simp only [resolveCategory]
  rw [dif_neg]
  rw [CATEGORIES_length]
  push_cast
  omega

theorem mergeResultsAux_mem (lookup : Int → Option ProcessedArticle) :
    ∀ (l : List Article) (s : Nat) (r : AnnotatedItem),
      r ∈ (mergeResultsAux lookup s l).1 →
      ∃ a ai, a ∈ l ∧ (∃ j : Int, lookup j = some ai) ∧ r = mkAnnotated a ai := by
  intro l
  induction l with
  | nil => intro s r h; simp [mergeResultsAux] at h
  | cons a rest ih =>
    intro s r h
    rcases hs : lookup (s : Int) with _ | ai <;> simp only [mergeResultsAux, hs] at h
    · obtain ⟨a2, ai2, hmem, hj, hr⟩ := ih (s + 1) r h
      exact ⟨a2, ai2, List.mem_cons_of_mem _ hmem, hj, hr⟩
    · rcases List.mem_cons.mp h with rfl | h2
      · exact ⟨a, ai, List.mem_cons_self _ _, ⟨(s : Int), hs⟩, rfl⟩
      · obtain ⟨a2, ai2, hmem, hj, hr⟩ := ih (s + 1) r h2
        exact ⟨a2, ai2, List.mem_cons_of_mem _ hmem, hj, hr⟩

theorem recoverAux_mem (lookup : Int → Option ProcessedArticle) :
    ∀ (l : List Article) (s : Nat) (r : AnnotatedItem),
      r ∈ recoverAux lookup s l →
      (∃ a ai, a ∈ l ∧ (∃ j : Int, lookup j = some ai) ∧ r = mkAnnotated a ai) ∨
      (∃ a, a ∈ l ∧ r = { item := a, category := CATEGORIES.getD 0 "",
                          summary := RECOVERY_FALLBACK_SUMMARY }) := by
  intro l
  induction l with
  | nil => intro s r h; simp [recoverAux] at h
  | cons a rest ih =>
    intro s r h
    rcases hs : lookup (s : Int) with _ | ai <;> simp only [recoverAux, hs] at h
    · rcases List.mem_cons.mp h with rfl | h2
      · exact Or.inr ⟨a, List.mem_cons_self _ _, rfl⟩
      · rcases ih (s + 1) r h2 with ⟨a2, ai2, hmem, hj, hr⟩ | ⟨a2, hmem, hr⟩
        · exact Or.inl ⟨a2, ai2, List.mem_cons_of_mem _ hmem, hj, hr⟩
        · exact Or.inr ⟨a2, List.mem_cons_of_mem _ hmem, hr⟩
    · rcases List.mem_cons.mp h with rfl | h2
      · exact Or.inl ⟨a, ai, List.mem_cons_self _ _, ⟨(s : Int), hs⟩, rfl⟩
      · rcases ih (s + 1) r h2 with ⟨a2, ai2, hmem, hj, hr⟩ | ⟨a2, hmem, hr⟩
        · exact Or.inl ⟨a2, ai2, List.mem_cons_of_mem _ hmem, hj, hr⟩
        · exact Or.inr ⟨a2, List.mem_cons_of_mem _ hmem, hr⟩

theorem buildFallbackChunk_mem {l : List Article} {r : AnnotatedItem}
    (h : r ∈ buildFallbackChunk l) :
    ∃ a, a ∈ l ∧ r = { item := a, category := CATEGORIES.getD 0 "",
                       summary := FALLBACK_SUMMARY } := by
  obtain ⟨a, hmem, hr⟩ := List.mem_map.mp h
  exact ⟨a, hmem, hr.symm⟩

/-- Every record emitted by the merge step carries a category from the
fixed table and a summary taken verbatim from the batch result. -/
theorem mergeResults_record_origin (c : List Article) (fr : BatchResult)
    (r : AnnotatedItem) (h : r ∈ (mergeResults c fr).1) :
    r.category ∈ CATEGORIES ∧ ∃ ai ∈ fr.articles, r.summary = ai.summary := by
  obtain ⟨a, ai, _, ⟨j, hj⟩, hr⟩ := mergeResultsAux_mem _ c 0 r h
  obtain ⟨haimem, _⟩ := resultLookup_mem hj
  rw [hr]
  exact ⟨resolveCategory_mem _, ai, haimem, rfl⟩

/-- Every record emitted by the recovery step carries a category from the
fixed table, and a summary that is a fallback text or comes verbatim from
the recovery call result. -/
theorem recoverFailedArticles_record_origin (l : List Article)
    (ro : Option BatchResult) (r : AnnotatedItem)
    (h : r ∈ recoverFailedArticles l ro) :
    r.category ∈ CATEGORIES ∧
    (r.summary = FALLBACK_SUMMARY ∨ r.summary = RECOVERY_FALLBACK_SUMMARY ∨
      ∃ rr, ro = some rr ∧ ∃ ai ∈ rr.articles, r.summary = ai.summary) := by
  rcases ro with _ | rr
  · simp only [recoverFailedArticles] at h
    obtain ⟨a, _, hr⟩ := buildFallbackChunk_mem h
    rw [hr]
    exact ⟨CATEGORIES_getD_mem, Or.inl rfl⟩
  · simp only [recoverFailedArticles] at h
    rcases recoverAux_mem _ _ 0 r h with ⟨a, ai, _, ⟨j, hj⟩, hr⟩ | ⟨a, _, hr⟩
    · obtain ⟨haimem, _⟩ := resultLookup_mem hj
      rw [hr]
      exact ⟨resolveCategory_mem _, Or.inr (Or.inr ⟨rr, rfl, ai, haimem, rfl⟩)⟩
    · rw [hr]
      exact ⟨CATEGORIES_getD_mem, Or.inr (Or.inl rfl)⟩

/-- Every output record of one chunk carries a category from the fixed
table, and its summary is one of the two fallback texts or a summary
taken verbatim from one of the chunk's three structured-call results. -/
theorem processBatchTwoPass_record_origin (c : List Article) (o : ChunkOracle)
    (r : AnnotatedItem) (h : r ∈ (processBatchTwoPass c o).1) :
    r.category ∈ CATEGORIES ∧
    (r.summary = FALLBACK_SUMMARY ∨ r.summary = RECOVERY_FALLBACK_SUMMARY ∨
      ∃ br ai, (o.pass1 = some br ∨ o.pass2 = some br ∨ o.recovery = some br) ∧
        ai ∈ br.articles ∧ r.summary = ai.summary) := by
  obtain ⟨op1, op2, orec⟩ := o
  rcases op1 with _ | p1
  · simp only [processBatchTwoPass] at h
    obtain ⟨a, _, hr⟩ := buildFallbackChunk_mem h
    rw [hr]
    exact ⟨CATEGORIES_getD_mem, Or.inl rfl⟩
  · simp only [processBatchTwoPass, reconcileChunk] at h
    have hfr : (some p1 = some (op2.getD p1) ∨ op2 = some (op2.getD p1)) := by
      rcases op2 with _ | p2
      · exact Or.inl rfl
      · exact Or.inr rfl
    have hlift : (∃ ai ∈ (op2.getD p1).articles, r.summary = ai.summary) →
        ∃ br ai,
          ((⟨some p1, op2, orec⟩ : ChunkOracle).pass1 = some br ∨
            (⟨some p1, op2, orec⟩ : ChunkOracle).pass2 = some br ∨
            (⟨some p1, op2, orec⟩ : ChunkOracle).recovery = some br) ∧
          ai ∈ br.articles ∧ r.summary = ai.summary := by
      rintro ⟨ai, haimem, hsum⟩
      refine ⟨op2.getD p1, ai, ?_, haimem, hsum⟩
      rcases hfr with h1 | h2
      · exact Or.inl h1
      · exact Or.inr (Or.inl h2)
    split at h
    · simp only at h
      obtain ⟨hcat, hsum⟩ := mergeResults_record_origin c (op2.getD p1) r h
      exact ⟨hcat, Or.inr (Or.inr (hlift hsum))⟩
    · simp only at h
      rcases List.mem_append.mp h with hm | hrec
      · obtain ⟨hcat, hsum⟩ := mergeResults_record_origin c (op2.getD p1) r hm
        exact ⟨hcat, Or.inr (Or.inr (hlift hsum))⟩
      · obtain ⟨hcat, hsum⟩ :=
          recoverFailedArticles_record_origin (mergeResults c (op2.getD p1)).2 orec r hrec
        refine ⟨hcat, ?_⟩
        rcases hsum with h1 | h2 | ⟨rr, hro, ai, haimem, hsum2⟩
        · exact Or.inl h1
        · exact Or.inr (Or.inl h2)
        · exact Or.inr (Or.inr ⟨rr, ai, Or.inr (Or.inr hro), haimem, hsum2⟩)


theorem processChunksFrom_mem (orc : Nat → ChunkOracle) :
    ∀ (cs : List (List Article)) (i : Nat) (r : AnnotatedItem),
      r ∈ processChunksFrom orc i cs →
      ∃ k c, c ∈ cs ∧ r ∈ (processBatchTwoPass c (orc k)).1 := by
  intro cs
  induction cs with
  | nil => intro i r h; simp [processChunksFrom] at h
  | cons c rest ih =>
    intro i r h
    rcases List.mem_append.mp h with h1 | h2
    · exact ⟨i, c, List.mem_cons_self _ _, h1⟩
    · obtain ⟨k, c2, hmem, hr⟩ := ih (i + 1) r h2
      exact ⟨k, c2, List.mem_cons_of_mem _ hmem, hr⟩

/-! ## Subset lemma for chunks (any chunk size, including 0) -/

theorem chunkList_mem_subset :
    ∀ (n k : Nat) (l : List Article), l.length ≤ k →
      ∀ c ∈ chunkList n l, ∀ x ∈ c, x ∈ l
  | _, _, [], _ => by simp [chunkList]
  | 0, _, a :: rest, _ => by simp [chunkList]
  | n + 1, 0, a :: rest, h => by simp at h
  | n + 1, k + 1, a :: rest, h => by
    simp only [chunkList, List.mem_cons]
    rintro c (rfl | hc) x hx
    · exact List.mem_cons.mp (List.take_subset _ _ hx)
    · have hx2 := chunkList_mem_subset (n + 1) k ((a :: rest).drop (n + 1))
        (by simp only [List.length_drop, List.length_cons] at h ⊢; omega) c hc x hx
      exact List.mem_cons.mp (List.drop_subset _ _ hx2)

/-! ## Concrete sample data used to instantiate the theorems -/

/-- A sample input article. -/
def sampleA : Article := ⟨"A title", "a.example", "SrcA", "body A"⟩

/-- A sample input article. -/
def sampleB : Article := ⟨"B title", "b.example", "SrcB", "body B"⟩

/-- A sample input article. -/
def sampleC : Article := ⟨"C title", "c.example", "SrcC", "body C"⟩

/-- An oracle on which every structured call exhausts its retries. -/
def emptyOracle : Nat → ChunkOracle := fun _ => ⟨none, none, none⟩

/-! ## Claims -/

/-- C1: for every input list (of any length L) and every positive chunk
size, whatever the outcome of each inference call, the pipeline returns
exactly L annotated records and the multiset of their embedded items is a
permutation of the input list: no input item is duplicated, omitted, or
left without a record. -/
theorem claim_C1_completeness (articles : List Article) (chunk_size : Nat)
    (orc : Nat → ChunkOracle) (hpos : 0 < chunk_size) :
    (process_articles_in_chunks articles chunk_size orc).length = articles.length ∧
    ((process_articles_in_chunks articles chunk_size orc).map
        (fun r => r.item)).Perm articles := by
  have h := processChunksFrom_perm orc (chunkList chunk_size articles) 0
  rw [chunkList_flatten chunk_size hpos articles] at h
  refine ⟨?_, h⟩
  have hlen := h.length_eq
  simpa using hlen

/-- Witness for C1 at a concrete input: three articles, chunk size 2,
every inference call failing. -/
theorem claim_C1_completeness_witness :
    (process_articles_in_chunks [sampleA, sampleB, sampleC] 2 emptyOracle).length
        = [sampleA, sampleB, sampleC].length ∧
    ((process_articles_in_chunks [sampleA, sampleB, sampleC] 2 emptyOracle).map
        (fun r => r.item)).Perm [sampleA, sampleB, sampleC] :=
  claim_C1_completeness [sampleA, sampleB, sampleC] 2 emptyOracle (by decide)

/-- C8: for every input list and positive chunk size `n`, the Chunker
produces slices whose concatenation is exactly the input (contiguous,
order-preserving, nothing duplicated or dropped), each slice has at most
`n` items, only the final slice may be shorter than `n`, and the split is
deterministic. -/
theorem claim_C8_chunker (n : Nat) (hn : 0 < n) (l : List Article) :
    (chunkList n l).flatten = l ∧
    (∀ c ∈ chunkList n l, c.length ≤ n) ∧
    (∀ c ∈ (chunkList n l).dropLast, c.length = n) ∧
    chunkList n l = chunkList n l := by
  obtain ⟨m, rfl⟩ : ∃ m, n = m + 1 := ⟨n - 1, by omega⟩
  exact ⟨chunkList_flatten_fuel m l.length l le_rfl,
    chunkList_length_le m l.length l le_rfl,
    chunkList_dropLast_length m l.length l le_rfl, rfl⟩

/-- Witness for C8 at a concrete input: three articles, chunk size 2. -/
theorem claim_C8_chunker_witness :
    (chunkList 2 [sampleA, sampleB, sampleC]).flatten = [sampleA, sampleB, sampleC] ∧
    (∀ c ∈ chunkList 2 [sampleA, sampleB, sampleC], c.length ≤ 2) ∧
    (∀ c ∈ (chunkList 2 [sampleA, sampleB, sampleC]).dropLast, c.length = 2) ∧
    chunkList 2 [sampleA, sampleB, sampleC] = chunkList 2 [sampleA, sampleB, sampleC] :=
  claim_C8_chunker 2 (by decide) [sampleA, sampleB, sampleC]

/-- C4: if Pass 2 (audit) definitively fails while Pass 1 succeeded, the
chunk's final output equals the reconciliation of the chunk against the
Pass 1 result (merge plus any recovery for missing indices) — the same
output an audit pass returning the Pass 1 result unchanged would give. -/
theorem claim_C4_audit_degradation (chunk : List Article) (p1 : BatchResult)
    (ro : Option BatchResult) :
    (processBatchTwoPass chunk ⟨some p1, none, ro⟩).1 = (reconcileChunk chunk p1 ro).1 ∧
    (processBatchTwoPass chunk ⟨some p1, none, ro⟩).1
      = (processBatchTwoPass chunk ⟨some p1, some p1, ro⟩).1 :=
  ⟨rfl, rfl⟩

/-- C6: if Pass 1 yields no result (every inference call for the chunk
failed after exhausting retries), every item of the chunk receives the
fallback placeholder record (first category label, fixed fallback summary),
the output still has one record per item, the only structured call made is
Pass 1 (Pass 2 is never invoked without a Pass 1 result), and a
structured call whose attempts all fail returns the definitive no-result
signal rather than raising. -/
theorem claim_C6_total_collapse (chunk : List Article) (o : ChunkOracle)
    (h1 : o.pass1 = none) :
    (processBatchTwoPass chunk o).1 = buildFallbackChunk chunk ∧
    (processBatchTwoPass chunk o).1.length = chunk.length ∧
    (∀ r ∈ (processBatchTwoPass chunk o).1,
      r.category = CATEGORIES.getD 0 "" ∧ r.summary = FALLBACK_SUMMARY) ∧
    (processBatchTwoPass chunk o).2 = ["Pass 1"] ∧
    (∀ oracle : Nat → Except String BatchResult,
      (∀ k r, oracle k ≠ Except.ok r) → (callGeminiStructured oracle).1 = none) := by
  have hout : processBatchTwoPass chunk o = (buildFallbackChunk chunk, ["Pass 1"]) := by
    simp only [processBatchTwoPass, h1]
  refine ⟨by rw [hout], ?_, ?_, by rw [hout], ?_⟩
  · rw [hout]
    simp [buildFallbackChunk]
  · intro r hr
    rw [hout] at hr
    obtain ⟨a, _, hreq⟩ := buildFallbackChunk_mem hr
    rw [hreq]
    exact ⟨rfl, rfl⟩
  · intro oracle hfail
    rcases ho0 : oracle 0 with e0 | r0
    · rcases ho1 : oracle 1 with e1 | r1
      · rcases ho2 : oracle 2 with e2 | r2
        · simp [callGeminiStructured, max_retries, callLoop, ho0, ho1, ho2]
        · exact absurd ho2 (hfail 2 r2)
      · exact absurd ho1 (hfail 1 r1)
    · exact absurd ho0 (hfail 0 r0)

/-- Witness for C6 at a concrete input: three articles with all calls
failing. -/
theorem claim_C6_total_collapse_witness :
    (processBatchTwoPass [sampleA, sampleB, sampleC] ⟨none, none, none⟩).1
        = buildFallbackChunk [sampleA, sampleB, sampleC] ∧
    (processBatchTwoPass [sampleA, sampleB, sampleC] ⟨none, none, none⟩).1.length
        = [sampleA, sampleB, sampleC].length ∧
    (∀ r ∈ (processBatchTwoPass [sampleA, sampleB, sampleC] ⟨none, none, none⟩).1,
      r.category = CATEGORIES.getD 0 "" ∧ r.summary = FALLBACK_SUMMARY) ∧
    (processBatchTwoPass [sampleA, sampleB, sampleC] ⟨none, none, none⟩).2 = ["Pass 1"] ∧
    (∀ oracle : Nat → Except String BatchResult,
      (∀ k r, oracle k ≠ Except.ok r) → (callGeminiStructured oracle).1 = none) :=
  claim_C6_total_collapse [sampleA, sampleB, sampleC] ⟨none, none, none⟩ rfl

/-- C7: the structured-call client makes at most 3 attempts per call; the
delay before a retry is the fixed 65 for an error whose text contains
"429" and the linear `base_delay * attemptNumber` (base 15) otherwise; on
exhausting all attempts it returns the definitive no-result signal. The
exhaustive characterization below covers every possible attempt outcome,
so no exception ever reaches the caller. (The current source has a single
structured-call client with base delay 15; no 35-second single-pass call
type exists in it.) -/
theorem claim_C7_retry_client (oracle : Nat → Except String BatchResult) :
    (callGeminiStructured oracle).2.1 ≤ max_retries ∧
    (∀ (k : Nat) (e : String), retryDelay base_delay k e
        = if has429 e.toList then 65 else 15 * (k + 1)) ∧
    (∀ r, oracle 0 = Except.ok r →
      callGeminiStructured oracle = (some r, 1, [])) ∧
    (∀ e0 r, oracle 0 = Except.error e0 → oracle 1 = Except.ok r →
      callGeminiStructured oracle = (some r, 2, [retryDelay base_delay 0 e0])) ∧
    (∀ e0 e1 r, oracle 0 = Except.error e0 → oracle 1 = Except.error e1 →
      oracle 2 = Except.ok r →
      callGeminiStructured oracle
        = (some r, 3, [retryDelay base_delay 0 e0, retryDelay base_delay 1 e1])) ∧
    (∀ e0 e1 e2, oracle 0 = Except.error e0 → oracle 1 = Except.error e1 →
      oracle 2 = Except.error e2 →
      callGeminiStructured oracle
        = (none, 3, [retryDelay base_delay 0 e0, retryDelay base_delay 1 e1])) := by
  refine ⟨?_, fun k e => rfl, ?_, ?_, ?_, ?_⟩
  · rcases ho0 : oracle 0 with e0 | r0
    · rcases ho1 : oracle 1 with e1 | r1
      · rcases ho2 : oracle 2 with e2 | r2
        · simp [callGeminiStructured, max_retries, callLoop, ho0, ho1, ho2]
        · simp [callGeminiStructured, max_retries, callLoop, ho0, ho1, ho2]
      · simp [callGeminiStructured, max_retries, callLoop, ho0, ho1]
    · simp [callGeminiStructured, max_retries, callLoop, ho0]
  · intro r h0
    simp [callGeminiStructured, max_retries, callLoop, h0]
  · intro e0 r h0 h1
    simp [callGeminiStructured, max_retries, callLoop, h0, h1]
  · intro e0 e1 r h0 h1 h2
    simp [callGeminiStructured, max_retries, callLoop, h0, h1, h2]
  · intro e0 e1 e2 h0 h1 h2
    simp [callGeminiStructured, max_retries, callLoop, h0, h1, h2]

/-- A concrete attempt oracle: the first attempt is rejected with a
rate-limit error, the second succeeds. -/
def oracle429 : Nat → Except String BatchResult :=
  fun k => if k = 0 then Except.error "HTTP 429 RESOURCE_EXHAUSTED" else Except.ok ⟨[]⟩

/-- Witness for C7: one 429 rejection followed by a success gives two
attempts and a single 65-second delay. -/
theorem claim_C7_retry_client_witness :
    callGeminiStructured oracle429
      = (some ⟨[]⟩, 2, [retryDelay base_delay 0 "HTTP 429 RESOURCE_EXHAUSTED"]) :=
  (claim_C7_retry_client oracle429).2.2.2.1 "HTTP 429 RESOURCE_EXHAUSTED" ⟨[]⟩ rfl rfl

/-- C2: if the final batch result used for reconciliation (the Pass 2
result if present, else the Pass 1 result) contains the annotation `ai`
for index `i` — `ai` is in the result, carries index `i`, and is the only
entry with that index — and item `i` exists in the chunk, then the chunk's
output contains the record pairing the chunk's item at position `i` with
exactly that annotation's summary and its resolved category, never a
value from a different item's annotation. -/
theorem claim_C2_attribution (chunk : List Article) (p1 : BatchResult)
    (p2 recovery : Option BatchResult) (i : Nat) (hi : i < chunk.length)
    (ai : ProcessedArticle) (hmem : ai ∈ (p2.getD p1).articles)
    (hidx : ai.index = (i : Int))
    (huniq : ∀ b ∈ (p2.getD p1).articles, b.index = (i : Int) → b = ai) :
    mkAnnotated (chunk.get ⟨i, hi⟩) ai
      ∈ (processBatchTwoPass chunk ⟨some p1, p2, recovery⟩).1 ∧
    (mkAnnotated (chunk.get ⟨i, hi⟩) ai).summary = ai.summary ∧
    (mkAnnotated (chunk.get ⟨i, hi⟩) ai).category = resolveCategory ai.category_id := by
  have hlk : resultLookup (p2.getD p1).articles (i : Int) = some ai :=
    resultLookup_eq_some_of_unique hmem hidx huniq
  have hmerge : mkAnnotated (chunk.get ⟨i, hi⟩) ai
      ∈ (mergeResults chunk (p2.getD p1)).1 := by
    have h := mergeResultsAux_mem_of_lookup (resultLookup (p2.getD p1).articles)
      chunk 0 i hi ai (by simpa using hlk)
    simpa [mergeResults] using h
  refine ⟨?_, rfl, rfl⟩
  simp only [processBatchTwoPass, reconcileChunk]
  split
  · exact hmerge
  · exact List.mem_append_left _ hmerge

/-- Witness for C2: a two-item chunk whose Pass 1 result annotates only
index 1; the output carries that annotation on item 1. -/
theorem claim_C2_attribution_witness :
    mkAnnotated ([sampleA, sampleB].get ⟨1, by decide⟩) ⟨1, 3, "summary S"⟩
      ∈ (processBatchTwoPass [sampleA, sampleB]
          ⟨some ⟨[⟨1, 3, "summary S"⟩]⟩, none, none⟩).1 ∧
    (mkAnnotated ([sampleA, sampleB].get ⟨1, by decide⟩) ⟨1, 3, "summary S"⟩).summary
      = "summary S" ∧
    (mkAnnotated ([sampleA, sampleB].get ⟨1, by decide⟩) ⟨1, 3, "summary S"⟩).category
      = resolveCategory 3 :=
  claim_C2_attribution [sampleA, sampleB] ⟨[⟨1, 3, "summary S"⟩]⟩ none none 1
    (by decide) ⟨1, 3, "summary S"⟩ (by decide) (by decide) (by decide)

/-- C9: the merge step classifies each chunk item into exactly one of
annotated or missing (the two output list lengths sum to the chunk
length); annotation entries whose index matches no chunk position
(negative or at least the chunk length) can be removed from the batch
result without changing the merge at all; and when several entries share
an index, the last one in the result sequence is the one the lookup — and
hence the merge — uses for that item. -/
theorem claim_C9_merge_partition (chunk : List Article) (br : BatchResult) :
    ((mergeResults chunk br).1.length + (mergeResults chunk br).2.length
        = chunk.length) ∧
    (mergeResults chunk
        ⟨br.articles.filter
          (fun b => decide (0 ≤ b.index ∧ b.index < (chunk.length : Int)))⟩
      = mergeResults chunk br) ∧
    (∀ (l₁ l₂ : List ProcessedArticle) (b : ProcessedArticle) (i : Nat),
      b.index = (i : Int) → (∀ c ∈ l₂, c.index ≠ (i : Int)) →
      resultLookup (l₁ ++ b :: l₂) (i : Int) = some b ∧
      ∀ hi : i < chunk.length,
        mkAnnotated (chunk.get ⟨i, hi⟩) b
          ∈ (mergeResults chunk ⟨l₁ ++ b :: l₂⟩).1) := by
  refine ⟨mergeResultsAux_length _ chunk 0, ?_, ?_⟩
  · unfold mergeResults
    apply mergeResultsAux_congr
    intro j hj
    simp only [Nat.zero_add]
    apply resultLookup_filter
    intro b hb
    rw [hb]
    apply decide_eq_true
    constructor
    · exact Int.ofNat_nonneg j
    · exact Int.ofNat_lt.mpr hj
  · intro l₁ l₂ b i hidx hafter
    have hlk : resultLookup (l₁ ++ b :: l₂) (i : Int) = some b :=
      resultLookup_last_wins l₁ l₂ b _ hidx hafter
    refine ⟨hlk, fun hi => ?_⟩
    have h := mergeResultsAux_mem_of_lookup (resultLookup (l₁ ++ b :: l₂))
      chunk 0 i hi b (by simpa using hlk)
    simpa [mergeResults] using h

/-- Witness for C9's last-wins clause: with an earlier entry for index 1,
a later entry for index 1, and an unrelated entry after it, the lookup
returns the later entry and the merge uses it. -/
theorem claim_C9_merge_partition_witness :
    resultLookup ([⟨1, 9, "old"⟩] ++ (⟨1, 2, "new"⟩ : ProcessedArticle) :: [⟨0, 1, "x"⟩])
        ((1 : Nat) : Int) = some ⟨1, 2, "new"⟩ ∧
    mkAnnotated ([sampleA, sampleB].get ⟨1, by decide⟩) ⟨1, 2, "new"⟩
      ∈ (mergeResults [sampleA, sampleB]
          ⟨[⟨1, 9, "old"⟩] ++ ⟨1, 2, "new"⟩ :: [⟨0, 1, "x"⟩]⟩).1 := by
  have h := (claim_C9_merge_partition [sampleA, sampleB] ⟨[]⟩).2.2
    [⟨1, 9, "old"⟩] [⟨0, 1, "x"⟩] ⟨1, 2, "new"⟩ 1 (by decide) (by decide)
  exact ⟨h.1, h.2 (by decide)⟩

/-- An oracle whose Pass 1 result annotates the single item with an empty
summary string. -/
def emptySummaryOracle : Nat → ChunkOracle :=
  fun _ => ⟨some ⟨[⟨0, 1, ""⟩]⟩, none, none⟩

/-- C3 counterexample: the merge path copies the annotation's summary
verbatim, so when the inference service returns an empty summary string
the pipeline emits a record with an empty summary — the "summary always
non-empty" half of the claim is false. -/
theorem claim_C3_counterexample :
    ∃ r ∈ process_articles_in_chunks [sampleA] 20 emptySummaryOracle,
      r.summary = "" := by
  refine ⟨mkAnnotated sampleA ⟨0, 1, ""⟩, ?_, rfl⟩
  have hout : process_articles_in_chunks [sampleA] 20 emptySummaryOracle
      = [mkAnnotated sampleA ⟨0, 1, ""⟩] := by
    simp [process_articles_in_chunks, chunkList, processChunksFrom, processBatchTwoPass,
      emptySummaryOracle, reconcileChunk, mergeResults, mergeResultsAux, resultLookup]
  rw [hout]
  exact List.mem_singleton.mpr rfl

/-- C3 amended: every record produced by the pipeline carries a category
from the fixed 7-label table (on every path: merge, recovery, fallback),
any category id outside 1..7 resolves to the first label, and every
record's summary is non-empty provided each summary supplied by the
inference service is non-empty — it is always either one of the two
non-empty fallback texts or a service-supplied summary copied verbatim
(the unconditional non-emptiness of the original claim fails because the
service may supply an empty summary). -/
theorem claim_C3_amended (articles : List Article) (chunk_size : Nat)
    (orc : Nat → ChunkOracle) :
    (∀ r ∈ process_articles_in_chunks articles chunk_size orc,
      r.category ∈ CATEGORIES) ∧
    (∀ cid : Int, cid < 1 ∨ 7 < cid → resolveCategory cid = CATEGORIES.getD 0 "") ∧
    ((∀ k br, ((orc k).pass1 = some br ∨ (orc k).pass2 = some br ∨
          (orc k).recovery = some br) → ∀ ai ∈ br.articles, ai.summary ≠ "") →
      ∀ r ∈ process_articles_in_chunks articles chunk_size orc, r.summary ≠ "") := by
  refine ⟨?_, fun cid h => resolveCategory_default cid h, ?_⟩
  · intro r hr
    obtain ⟨k, c, _, hrc⟩ := processChunksFrom_mem orc _ 0 r hr
    exact (processBatchTwoPass_record_origin c (orc k) r hrc).1
  · intro hor r hr
    obtain ⟨k, c, _, hrc⟩ := processChunksFrom_mem orc _ 0 r hr
    rcases (processBatchTwoPass_record_origin c (orc k) r hrc).2 with
      h1 | h2 | ⟨br, ai, hbr, haimem, hsum⟩
    · rw [h1]; decide
    · rw [h2]; decide
    · rw [hsum]; exact hor k br hbr ai haimem

/-- Witness for C3 (amended) at a concrete input: one article, all calls
failing, nonempty-summary hypothesis discharged vacuously. -/
theorem claim_C3_amended_witness :
    (∀ r ∈ process_articles_in_chunks [sampleA] 1 emptyOracle,
      r.category ∈ CATEGORIES) ∧
    (∀ r ∈ process_articles_in_chunks [sampleA] 1 emptyOracle, r.summary ≠ "") := by
  refine ⟨(claim_C3_amended [sampleA] 1 emptyOracle).1,
    (claim_C3_amended [sampleA] 1 emptyOracle).2.2 ?_⟩
  intro k br hbr
  rcases hbr with h | h | h <;> simp [emptyOracle] at h

/-- C5: the items routed to recovery are exactly the chunk items at
positions absent from the final batch result's index set, in chunk order;
the recovery step (re-indexing those items 0..k-1) yields one record per
failed item, where position `j` gets the recovered annotation when the
recovery result contains index `j` and the fallback record (first category
label, recovery-failure marker summary) when it does not; and a chunk with
a non-empty missing set makes exactly one extra structured call, the
single generate-only "Recovery Pass". -/
theorem claim_C5_recovery (chunk : List Article) (br : BatchResult)
    (rr : BatchResult) :
    ((mergeResults chunk br).2
      = ((chunk.enum.filter
            (fun p => decide (∀ b ∈ br.articles, b.index ≠ (p.1 : Int)))).map
          Prod.snd)) ∧
    ((recoverFailedArticles (mergeResults chunk br).2 (some rr)).length
      = (mergeResults chunk br).2.length) ∧
    (∀ (j : Nat) (d : AnnotatedItem) (da : Article),
      j < (mergeResults chunk br).2.length →
      (recoverFailedArticles (mergeResults chunk br).2 (some rr)).getD j d
        = (match resultLookup rr.articles (j : Int) with
           | some ai => mkAnnotated ((mergeResults chunk br).2.getD j da) ai
           | none => { item := (mergeResults chunk br).2.getD j da,
                       category := CATEGORIES.getD 0 "",
                       summary := RECOVERY_FALLBACK_SUMMARY })) ∧
    (∀ (p1 : BatchResult) (ro : Option BatchResult),
      (mergeResults chunk p1).2 ≠ [] →
      (processBatchTwoPass chunk ⟨some p1, none, ro⟩).2
        = ["Pass 1", "Pass 2", "Recovery Pass"]) := by
  refine ⟨?_, recoverAux_length _ _ 0, ?_, ?_⟩
  · have hpt : ∀ p : Nat × Article,
        (resultLookup br.articles (p.1 : Int)).isNone
          = decide (∀ b ∈ br.articles, b.index ≠ (p.1 : Int)) := by
      intro p
      rcases h : resultLookup br.articles (p.1 : Int) with _ | v
      · have hall := (resultLookup_eq_none_iff br.articles (p.1 : Int)).mp h
        rw [Option.isNone_none, (decide_eq_true hall).symm]
      · have hnall : ¬ ∀ b ∈ br.articles, b.index ≠ (p.1 : Int) := by
          intro hP
          rw [(resultLookup_eq_none_iff br.articles (p.1 : Int)).mpr hP] at h
          cases h
        rw [Option.isNone_some, decide_eq_false hnall]
    have h := mergeResultsAux_failed (resultLookup br.articles) chunk 0
    exact h.trans (congrArg (List.map Prod.snd)
      (List.filter_congr (fun p _ => hpt p)))
  · intro j d da hj
    have h := recoverAux_getD (resultLookup rr.articles) d da
      (mergeResults chunk br).2 0 j hj
    simpa using h
  · intro p1 ro hne
    simp only [processBatchTwoPass, reconcileChunk]
    rw [if_neg]
    intro hempty
    exact hne (List.isEmpty_iff.mp hempty)

/-- Witness for C5: a two-item chunk where the batch result covers only
index 0, so item 1 fails; a recovery result covering nothing gives item 1
the recovery-failure record, and the chunk makes the recovery call. -/
theorem claim_C5_recovery_witness :
    (recoverFailedArticles
        (mergeResults [sampleA, sampleB] ⟨[⟨0, 1, "s0"⟩]⟩).2 (some ⟨[]⟩)).getD 0
        (mkAnnotated sampleA ⟨0, 1, "s0"⟩)
      = (match resultLookup (⟨[]⟩ : BatchResult).articles ((0 : Nat) : Int) with
         | some ai => mkAnnotated
             ((mergeResults [sampleA, sampleB] ⟨[⟨0, 1, "s0"⟩]⟩).2.getD 0 sampleA) ai
         | none => { item := (mergeResults [sampleA, sampleB] ⟨[⟨0, 1, "s0"⟩]⟩).2.getD 0 sampleA,
                     category := CATEGORIES.getD 0 "",
                     summary := RECOVERY_FALLBACK_SUMMARY }) ∧
    (processBatchTwoPass [sampleA, sampleB] ⟨some ⟨[⟨0, 1, "s0"⟩]⟩, none, none⟩).2
      = ["Pass 1", "Pass 2", "Recovery Pass"] := by
  have h := claim_C5_recovery [sampleA, sampleB] ⟨[⟨0, 1, "s0"⟩]⟩ ⟨[]⟩
  exact ⟨h.2.2.1 0 (mkAnnotated sampleA ⟨0, 1, "s0"⟩) sampleA (by decide),
    h.2.2.2 ⟨[⟨0, 1, "s0"⟩]⟩ none (by decide)⟩

/-- C10: the pipeline never mutates its input: every output record embeds
one of the caller's items unchanged (all four dictionary fields intact),
and the ~1500-character body truncation exists only in the prompt payload
string — an article with a long body keeps its full body in the output
records while the payload entry carries the truncated text. -/
theorem claim_C10_no_mutation (articles : List Article) (chunk_size : Nat)
    (orc : Nat → ChunkOracle) :
    (∀ r ∈ process_articles_in_chunks articles chunk_size orc, r.item ∈ articles) ∧
    (∀ a : Article, 1500 < a.content.length →
      truncateContent a.content = a.content.take 1500 ++ "...(truncated)" ∧
      payloadEntry 0 a
        = "--- ARTICLE INDEX: " ++ toString (0 : Nat) ++ " ---\nTITLE: " ++ a.title ++
            "\nCONTENT: " ++ (a.content.take 1500 ++ "...(truncated)") ++ "\n\n" ∧
      ∀ (o : ChunkOracle) (r : AnnotatedItem),
        r ∈ (processBatchTwoPass [a] o).1 → r.item.content = a.content) := by
  constructor
  · intro r hr
    obtain ⟨k, c, hc, hrc⟩ := processChunksFrom_mem orc _ 0 r hr
    have hitem : r.item ∈ c := (processBatchTwoPass_perm c (orc k)).mem_iff.mp
      (List.mem_map_of_mem (fun x => x.item) hrc)
    exact chunkList_mem_subset chunk_size articles.length articles le_rfl c hc r.item hitem
  · intro a h
    have htr : truncateContent a.content = a.content.take 1500 ++ "...(truncated)" := by
      simp [truncateContent, h]
    refine ⟨htr, ?_, ?_⟩
    · simp only [payloadEntry, htr]
    · intro o r hro
      have hitem : r.item ∈ [a] := (processBatchTwoPass_perm [a] o).mem_iff.mp
        (List.mem_map_of_mem (fun x => x.item) hro)
      rw [List.mem_singleton.mp hitem]

/-- An article whose body is longer than the 1500-character truncation
cap. -/
def bigArticle : Article :=
  ⟨"Big", "big.example", "SrcBig", String.mk (List.replicate 1501 'x')⟩

/-- Witness for C10: the 1501-character body is truncated in the payload
entry yet preserved in every output record. -/
theorem claim_C10_no_mutation_witness :
    truncateContent bigArticle.content
      = bigArticle.content.take 1500 ++ "...(truncated)" ∧
    payloadEntry 0 bigArticle
      = "--- ARTICLE INDEX: " ++ toString (0 : Nat) ++ " ---\nTITLE: " ++
          bigArticle.title ++ "\nCONTENT: " ++
          (bigArticle.content.take 1500 ++ "...(truncated)") ++ "\n\n" ∧
    ∀ (o : ChunkOracle) (r : AnnotatedItem),
      r ∈ (processBatchTwoPass [bigArticle] o).1 →
        r.item.content = bigArticle.content :=
  (claim_C10_no_mutation [bigArticle] 20 emptyOracle).2 bigArticle (by
    have hlen : bigArticle.content.length = 1501 := by
      show (List.replicate 1501 'x').length = 1501
      exact List.length_replicate 1501 'x' 
    omega)

end CoffeeNews
